import Mathlib

set_option maxRecDepth 100000

/-!
Verification of the event extraction and sessionization core of the
TikTok BA dashboard (`src/app.py`).

The embedding below translates the Python source into Lean:

* pandas DataFrames of parsed rows become `List Event`;
* `pd.Timestamp` values become `Int` seconds since the epoch (UTC);
* a calendar date (`.dt.date`) becomes the floor of the timestamp divided
  by 86400, an `Int` day index;
* `re.findall` over the two fixed patterns `Date:\s*(.+?)\s*UTC` and
  `Link:\s*(https?://\S+)` is modelled by explicit scanners over
  `List Char` that reproduce the Python regex engine's behaviour on these
  patterns (leftmost scanning, greedy `\s*` with backtracking, lazy `.+?`,
  greedy `s?` and `\S+`); the character classes `\s`, `\S`, `\d`, `.` are
  modelled over their ASCII fragment;
* `pd.to_datetime(..., errors="coerce", utc=True)` — an external pandas
  date parser, not code of this repository — is abstracted as a parameter
  `pts : String → Option Int` (`none` models `NaT`), so that the dropna
  filtering of unparseable timestamps can be stated for every parser.
-/

/-- One parsed row of the DataFrame built by `parse_date_link_txt`
(columns `ts_utc`, `url`, `video_id`), after timestamp parsing: `ts_utc`
is an instant in UTC, in seconds. -/
structure Event where
  ts_utc : Int
  url : String
  video_id : Option String
deriving DecidableEq, Repr

/-- ASCII fragment of the Python regex class `\s` (` \t\n\r\v\f`). -/
def isPySpace (c : Char) : Bool :=
  c == ' ' || c == '\t' || c == '\n' || c == '\r' || c == Char.ofNat 11 || c == Char.ofNat 12

/-- Matcher for the fragment `\s*UTC` of `DATE_RE` at the head of `s`;
returns the remainder after `UTC`.  The greedy `\s*` never needs to
backtrack here: giving back a whitespace character would put it in front
of the literal `U`, which cannot match, so taking the maximal run is
exact. -/
def matchTail (s : List Char) : Option (List Char) :=
  let r := s.dropWhile isPySpace
  if ("UTC".data).isPrefixOf r then some (r.drop 3) else none

/-- Matcher for the continuation of the lazy group `(.+?)` of `DATE_RE`:
`acc` holds the (reversed) characters captured so far.  Lazy `+?` tries
the shortest extension first: at each step first attempt the tail
`\s*UTC`, and only on failure consume one more (non-newline, since `.`
does not match a newline) character into the capture. -/
def matchBodyAux (acc : List Char) (s : List Char) : Option (List Char × List Char) :=
  match matchTail s with
  | some r => some (acc.reverse, r)
  | none =>
    match s with
    | [] => none
    | c :: t => if c == '\n' then none else matchBodyAux (c :: acc) t

/-- Matcher for `(.+?)\s*UTC` at the head of `s`: the group needs at
least one character. -/
def matchBody (s : List Char) : Option (List Char × List Char) :=
  match s with
  | [] => none
  | c :: t => if c == '\n' then none else matchBodyAux [c] t

/-- Matcher for `\s*(.+?)\s*UTC` at the head of `s`.  The leading `\s*`
is greedy with backtracking: the longest whitespace run is tried first,
and on failure the run is shortened one character at a time (a given-back
whitespace character other than a newline can then be captured by `.+?`). -/
def matchAfterDate (s : List Char) : Option (List Char × List Char) :=
  match s with
  | [] => none
  | c :: t =>
    if isPySpace c then
      match matchAfterDate t with
      | some res => some res
      | none => matchBody (c :: t)
    else matchBody (c :: t)

/-- Attempt to match `DATE_RE = Date:\s*(.+?)\s*UTC` at the head of `s`;
on success returns the captured group and the remainder of the text after
the whole match. -/
def matchDateAt (s : List Char) : Option (List Char × List Char) :=
  if ("Date:".data).isPrefixOf s then matchAfterDate (s.drop 5) else none

/-- Scanner realizing `DATE_RE.findall`: try a match at every position,
left to right; after a match, continue after its end.  Every step either
consumes the matched text (at least one character) or advances one
character, so fuel equal to the length of the text is always sufficient. -/
def findallDateAux : Nat → List Char → List String
  | 0, _ => []
  | _ + 1, [] => []
  | fuel + 1, s@(_ :: t) =>
    match matchDateAt s with
    | some (cap, rest) => String.mk cap :: findallDateAux fuel rest
    | none => findallDateAux fuel t

/-- Model of `DATE_RE.findall(text)` (line 20 of `src/app.py`). -/
def findallDate (text : String) : List String :=
  findallDateAux text.data.length text.data

/-- Matcher for the group `(https?://\S+)` at the head of `s`: literal
scheme with greedy optional `s` (if consuming `s` fails, the literal `://`
must start at the `s`, which is impossible, so the two prefix tests below
realize the backtracking), then a maximal — greedy, with nothing after it
to backtrack for — nonempty run of `\S`. -/
def matchUrl (s : List Char) : Option (List Char × List Char) :=
  if ("https://".data).isPrefixOf s then
    let run := (s.drop 8).takeWhile (fun c => !(isPySpace c))
    if run.isEmpty then none else some ("https://".data ++ run, (s.drop 8).drop run.length)
  else if ("http://".data).isPrefixOf s then
    let run := (s.drop 7).takeWhile (fun c => !(isPySpace c))
    if run.isEmpty then none else some ("http://".data ++ run, (s.drop 7).drop run.length)
  else none

/-- Attempt to match `LINK_RE = Link:\s*(https?://\S+)` at the head of
`s`.  The `\s*` never backtracks: a given-back whitespace character would
face the literal `h`. -/
def matchLinkAt (s : List Char) : Option (List Char × List Char) :=
  if ("Link:".data).isPrefixOf s then matchUrl ((s.drop 5).dropWhile isPySpace) else none

/-- Scanner realizing `LINK_RE.findall`, like `findallDateAux`. -/
def findallLinkAux : Nat → List Char → List String
  | 0, _ => []
  | _ + 1, [] => []
  | fuel + 1, s@(_ :: t) =>
    match matchLinkAt s with
    | some (cap, rest) => String.mk cap :: findallLinkAux fuel rest
    | none => findallLinkAux fuel t

/-- Model of `LINK_RE.findall(text)` (line 21 of `src/app.py`). -/
def findallLink (text : String) : List String :=
  findallLinkAux text.data.length text.data

/-- Attempt to match `/video/(\d+)` at the head of `s`: literal
`/video/`, then a maximal nonempty digit run (ASCII fragment of `\d`). -/
def matchVideoAt (s : List Char) : Option String :=
  if ("/video/".data).isPrefixOf s then
    let run := (s.drop 7).takeWhile Char.isDigit
    if run.isEmpty then none else some (String.mk run)
  else none

/-- Scanner realizing `re.search(r"/video/(\d+)", url)`: the leftmost
position where the whole pattern matches wins. -/
def extractVideoIdAux : List Char → Option String
  | [] => none
  | s@(_ :: t) =>
    match matchVideoAt s with
    | some ds => some ds
    | none => extractVideoIdAux t

/-- Model of `extract_video_id` (lines 15–17 of `src/app.py`). -/
def extract_video_id (u : String) : Option String :=
  extractVideoIdAux u.data

/-- The pairing step of `parse_date_link_txt` (lines 20–24 of
`src/app.py`): the i-th date string found is paired with the i-th link
found, for `i < min` of the two counts. -/
def date_link_rows (text : String) : List (String × String) :=
  (findallDate text).zip (findallLink text)

/-- The candidate rows of `parse_date_link_txt` before timestamp parsing
(line 25 of `src/app.py`): raw date string, url, and extracted video id. -/
def candidate_rows (text : String) : List (String × String × Option String) :=
  (date_link_rows text).map (fun r => (r.1, r.2, extract_video_id r.2))

/-- Model of `parse_date_link_txt` (lines 19–30 of `src/app.py`),
parameterized by the pandas timestamp parser `pts` (`pd.to_datetime` with
`errors="coerce"`; `none` models `NaT`): rows whose date string fails to
parse are removed by `dropna`, the rest carry the parsed instant. -/
def parse_date_link_txt (pts : String → Option Int) (text : String) : List Event :=
  (date_link_rows text).filterMap
    (fun r => (pts r.1).map (fun t => { ts_utc := t, url := r.2, video_id := extract_video_id r.2 }))

example :
    candidate_rows
      "Date: Jan 1, 2024 12:00:00 UTC\nLink: https://x.com/@u/video/111\nDate: Jan 2, 2024 12:00:00 UTC\nLink: https://x.com/@u/video/222"
    = [("Jan 1, 2024 12:00:00", "https://x.com/@u/video/111", some "111"),
       ("Jan 2, 2024 12:00:00", "https://x.com/@u/video/222", some "222")] := by
  decide

/-- UTC calendar date of an instant, as a day index: the model of
`.dt.date` on a UTC timestamp in seconds (floor division, which is what
Lean's `Int` division by a positive divisor computes). -/
def dayOf (ts : Int) : Int := ts / 86400

/-- Model of `apply_date` (lines 47–51 of `src/app.py`): no filtering
when the frame is empty or either bound is absent; otherwise keep the
rows whose UTC calendar date lies in the inclusive range. -/
def apply_date (df : List Event) (start_date end_date : Option Int) : List Event :=
  if df.isEmpty then df
  else
    match start_date, end_date with
    | some sd, some ed =>
        df.filter (fun e => decide (sd ≤ dayOf e.ts_utc) && decide (dayOf e.ts_utc ≤ ed))
    | _, _ => df

/-- Insertion step of a stable insertion sort by the boolean relation
`r`; an element is inserted before the first list element it relates to. -/
def insertBy (r : α → α → Bool) (e : α) : List α → List α
  | [] => [e]
  | x :: xs => if r e x then e :: x :: xs else x :: insertBy r e xs

/-- Stable insertion sort by the boolean relation `r`: the model of
`DataFrame.sort_values` (the claims under study do not depend on the
order among rows with equal keys). -/
def sortBy (r : α → α → Bool) (l : List α) : List α :=
  l.foldr (insertBy r) []

/-- Ascending-timestamp comparison used by `sort_values("ts_utc")`. -/
def tsLe (a b : Event) : Bool := decide (a.ts_utc ≤ b.ts_utc)

/-- Descending-timestamp comparison used by
`sort_values("ts_utc", ascending=False)`. -/
def tsGe (a b : Event) : Bool := decide (b.ts_utc ≤ a.ts_utc)

/-- The walk underlying `add_sessions` (lines 57–59 of `src/app.py`):
given the previous event and its session id, each next event starts a new
session exactly when the gap to the previous event strictly exceeds
`gap_minutes` minutes (`w["gap"] > pd.Timedelta(minutes=gap_minutes)`),
so its session id is the running `cumsum` of the new-session flags. -/
def sessionsGo (g : Int) (prev : Event) (sid : Nat) : List Event → List (Event × Nat)
  | [] => []
  | e :: rest =>
    let sid2 := if e.ts_utc - prev.ts_utc > 60 * g then sid + 1 else sid
    (e, sid2) :: sessionsGo g e sid2 rest

/-- Model of `add_sessions` (lines 53–60 of `src/app.py`): sort by
timestamp, then assign each row the cumulative count of new-session
flags; the first row's gap is `NaT`, so its flag is set and it gets
session id 1.  An empty frame is returned unchanged. -/
def add_sessions (watch : List Event) (gap_minutes : Int) : List (Event × Nat) :=
  match sortBy tsLe watch with
  | [] => []
  | e :: rest => (e, 1) :: sessionsGo gap_minutes e 1 rest

/-- Collapse adjacent equal keys; on a sorted list this yields the
distinct keys, as `groupby` does. -/
def dedupAdj : List Nat → List Nat
  | [] => []
  | [x] => [x]
  | x :: y :: rest => if x = y then dedupAdj (y :: rest) else x :: dedupAdj (y :: rest)

/-- The sorted distinct group keys of `groupby("session_id")`. -/
def groupKeys (ws : List (Event × Nat)) : List Nat :=
  dedupAdj (sortBy (fun a b : Nat => decide (a ≤ b)) (ws.map Prod.snd))

/-- Minimum of a list of integers (`agg("min")` over a nonempty group;
the default for the impossible empty group is irrelevant). -/
def minList : List Int → Int
  | [] => 0
  | x :: xs => xs.foldl min x

/-- Maximum of a list of integers (`agg("max")` over a nonempty group). -/
def maxList : List Int → Int
  | [] => 0
  | x :: xs => xs.foldl max x

/-- One row of the `session_stats` frame (lines 442–452 of
`src/app.py`): group key, first/last timestamp, size, and duration in
minutes. -/
structure Session where
  session_id : Nat
  session_start : Int
  session_end : Int
  events : Nat
  duration_min : ℚ
deriving DecidableEq, Repr

/-- Model of the `session_stats` aggregation (lines 442–452 of
`src/app.py`): group the rows by `session_id` (keys ascending, as
`groupby` sorts them), and per group take the least timestamp, the
greatest timestamp, the row count, and the duration in minutes. -/
def session_stats (ws : List (Event × Nat)) : List Session :=
  (groupKeys ws).map (fun k =>
    { session_id := k
      session_start := minList ((ws.filter (fun p => p.2 == k)).map (fun p => p.1.ts_utc))
      session_end := maxList ((ws.filter (fun p => p.2 == k)).map (fun p => p.1.ts_utc))
      events := (ws.filter (fun p => p.2 == k)).length
      duration_min := ((maxList ((ws.filter (fun p => p.2 == k)).map (fun p => p.1.ts_utc))
          - minList ((ws.filter (fun p => p.2 == k)).map (fun p => p.1.ts_utc)) : Int) : ℚ) / 60 })

/-- Model of `set(df["video_id"].dropna())` (lines 68–69 of
`src/app.py`): the set of non-absent video ids of a frame.  (The source
guards for a missing `video_id` column or an empty frame; both can only
yield the empty set, which is what the empty list yields here.) -/
def video_ids (df : List Event) : Finset String :=
  (df.filterMap (fun e => e.video_id)).toFinset

/-- Model of the conversion computation (line 70 of `src/app.py`):
`len(watch_ids & like_ids) / len(watch_ids)` when `watch_ids` is
nonempty (Python truthiness), else `0.0`. -/
def conversion (watch_f likes_f : List Event) : ℚ :=
  if (video_ids watch_f).Nonempty then
    ((video_ids watch_f ∩ video_ids likes_f).card : ℚ) / ((video_ids watch_f).card : ℚ)
  else 0

/-- The new-session flags of the inline sessionization of
`render_wrapped` (lines 88–90 of `src/app.py`), over an already sorted
list: the first row's gap is `NaT` (flag set), later flags compare the
gap with the fixed 30-minute threshold. -/
def wrappedFlags : List Event → List Bool
  | [] => []
  | e :: rest => true :: wrappedFlagsGo e rest
where
  wrappedFlagsGo (prev : Event) : List Event → List Bool
    | [] => []
    | e :: rest => (decide (e.ts_utc - prev.ts_utc > 60 * 30)) :: wrappedFlagsGo e rest

/-- Model of the inline session count of `render_wrapped` (lines 87–94
of `src/app.py`): `0` for an empty frame, else the sum of the
new-session flags over the time-sorted rows. -/
def wrapped_session_count (watch_f : List Event) : Nat :=
  if watch_f.isEmpty then 0 else (wrappedFlags (sortBy tsLe watch_f)).count true

/-- Drop rows whose `url` was already seen, keeping the first occurrence:
the model of `drop_duplicates(subset=["url"])`. -/
def dropDupUrlsAux (seen : List String) : List Event → List Event
  | [] => []
  | e :: rest =>
    if e.url ∈ seen then dropDupUrlsAux seen rest
    else e :: dropDupUrlsAux (e.url :: seen) rest

/-- Model of the consumer-facing deduplication of
`render_cards_client_oembed` (lines 230–233 of `src/app.py`): sort by
timestamp descending, then drop duplicate urls keeping the first (the
`dropna(subset=["url"])` in between is the identity here, as every
extracted row carries a url).  The subsequent `head(n)` display cap is
separate. -/
def dedup_recent (df : List Event) : List Event :=
  dropDupUrlsAux [] (sortBy tsGe df)

example :
    apply_date [⟨86399, "a", none⟩, ⟨86400, "b", none⟩] (some 0) (some 0) = [⟨86399, "a", none⟩] := by
  decide

example :
    session_stats (add_sessions [⟨0, "a", none⟩, ⟨29 * 60, "b", none⟩, ⟨61 * 60, "c", none⟩] 30)
      = [⟨1, 0, 1740, 2, 29⟩, ⟨2, 3660, 3660, 1, 0⟩] := by
  have h : add_sessions [⟨0, "a", none⟩, ⟨29 * 60, "b", none⟩, ⟨61 * 60, "c", none⟩] 30
      = [(⟨0, "a", none⟩, 1), (⟨1740, "b", none⟩, 1), (⟨3660, "c", none⟩, 2)] := by decide
  rw [session_stats, h]
  norm_num [groupKeys, sortBy, insertBy, dedupAdj, minList, maxList, Session.mk.injEq]

example : wrapped_session_count [⟨0, "a", none⟩, ⟨29 * 60, "b", none⟩, ⟨61 * 60, "c", none⟩] = 2 := by
  decide

example :
    dedup_recent [⟨5, "u", none⟩, ⟨9, "u", none⟩, ⟨7, "v", none⟩]
      = [⟨9, "u", none⟩, ⟨7, "v", none⟩] := by
  decide

example : conversion [⟨0, "u", some "1"⟩, ⟨1, "v", some "2"⟩] [⟨2, "w", some "2"⟩] = 1 / 2 := by
  have h1 : (video_ids [⟨0, "u", some "1"⟩, ⟨1, "v", some "2"⟩]).Nonempty := by decide
  have h2 : (video_ids [⟨0, "u", some "1"⟩, ⟨1, "v", some "2"⟩]
      ∩ video_ids [⟨2, "w", some "2"⟩]).card = 1 := by decide
  have h3 : (video_ids [⟨0, "u", some "1"⟩, ⟨1, "v", some "2"⟩]).card = 2 := by decide
  rw [conversion, if_pos h1, h2, h3]
  norm_num

lemma apply_date_none_left (df : List Event) (ed : Option Int) : apply_date df none ed = df := by
  rcases ed with _ | e <;> (unfold apply_date; split <;> rfl)

lemma apply_date_end_none (df : List Event) (sd : Option Int) : apply_date df sd none = df := by
  rcases sd with _ | s <;> (unfold apply_date; split <;> rfl)

lemma apply_date_of_ne_nil (df : List Event) (sd ed : Int) (h : df ≠ []) :
    apply_date df (some sd) (some ed)
      = df.filter (fun e => decide (sd ≤ dayOf e.ts_utc) && decide (dayOf e.ts_utc ≤ ed)) := by
  unfold apply_date
  rw [List.isEmpty_eq_false.mpr h]
  simp

/-- Claim C5: `apply_date` returns the input unchanged when either bound
is absent or the collection is empty; otherwise it keeps exactly the
events whose UTC calendar date lies in the inclusive range
`[start_date, end_date]`; an event at 23:59:59 UTC on the end date is
included and an event one calendar day later is excluded. -/
theorem claim_C5_date_filter (df : List Event) (sd ed : Int) :
    apply_date df none (some ed) = df ∧
    apply_date df (some sd) none = df ∧
    apply_date ([] : List Event) (some sd) (some ed) = [] ∧
    (∀ e : Event, e ∈ apply_date df (some sd) (some ed) ↔
      e ∈ df ∧ sd ≤ dayOf e.ts_utc ∧ dayOf e.ts_utc ≤ ed) ∧
    (sd ≤ ed → ∀ u v,
      (⟨ed * 86400 + 86399, u, v⟩ : Event) ∈
        apply_date [⟨ed * 86400 + 86399, u, v⟩, ⟨ed * 86400 + 86399 + 86400, u, v⟩]
          (some sd) (some ed) ∧
      (⟨ed * 86400 + 86399 + 86400, u, v⟩ : Event) ∉
        apply_date [⟨ed * 86400 + 86399, u, v⟩, ⟨ed * 86400 + 86399 + 86400, u, v⟩]
          (some sd) (some ed)) := by
  refine ⟨apply_date_none_left df (some ed), apply_date_end_none df (some sd), rfl, ?_, ?_⟩
  · intro e
    by_cases hdf : df = []
    · subst hdf; simp [apply_date]
    · rw [apply_date_of_ne_nil df sd ed hdf]
      simp [List.mem_filter, and_assoc]
  · intro hle u v
    constructor
    · rw [apply_date_of_ne_nil _ sd ed (by simp)]
      simp only [List.mem_filter, dayOf]
      refine ⟨by simp, ?_⟩
      simp only [Bool.and_eq_true, decide_eq_true_eq]
      omega
    · intro hmem
      rw [apply_date_of_ne_nil _ sd ed (by simp)] at hmem
      simp only [List.mem_filter, dayOf, Bool.and_eq_true, decide_eq_true_eq] at hmem
      rcases hmem with ⟨-, -, hub⟩
      omega

theorem claim_C5_witness :
    (0 : Int) ≤ 0 ∧
    ((⟨86399, "u", none⟩ : Event) ∈
        apply_date [⟨86399, "u", none⟩, ⟨172799, "u", none⟩] (some 0) (some 0) ∧
      (⟨172799, "u", none⟩ : Event) ∉
        apply_date [⟨86399, "u", none⟩, ⟨172799, "u", none⟩] (some 0) (some 0)) :=
  ⟨by decide,
   by simpa using (claim_C5_date_filter [⟨86399, "u", none⟩, ⟨172799, "u", none⟩] 0 0).2.2.2.2
        (by decide) "u" none⟩

/-- Claim C8: for a non-empty collection and an inverted range
(`end_date < start_date`, both present), `apply_date` returns the empty
collection rather than failing. -/
theorem claim_C8_inverted_range (df : List Event) (sd ed : Int) (hinv : ed < sd)
    (hne : df ≠ []) : apply_date df (some sd) (some ed) = [] := by
  rw [apply_date_of_ne_nil df sd ed hne, List.filter_eq_nil_iff]
  intro e _
  simp only [Bool.and_eq_true, decide_eq_true_eq, not_and]
  omega

theorem claim_C8_witness :
    (0 : Int) < 1 ∧ ([⟨0, "u", none⟩] : List Event) ≠ [] ∧
      apply_date [⟨0, "u", none⟩] (some 1) (some 0) = [] :=
  ⟨by decide, by decide, claim_C8_inverted_range [⟨0, "u", none⟩] 1 0 (by decide) (by decide)⟩

/-- Claim C9: applying `apply_date` twice with the same bounds equals
applying it once. -/
theorem claim_C9_idempotent (df : List Event) (sd ed : Option Int) :
    apply_date (apply_date df sd ed) sd ed = apply_date df sd ed := by
  rcases sd with _ | s
  · rw [apply_date_none_left, apply_date_none_left]
  rcases ed with _ | e
  · rw [apply_date_end_none, apply_date_end_none]
  by_cases hdf : df = []
  · subst hdf; rfl
  rw [apply_date_of_ne_nil df s e hdf]
  by_cases hf : df.filter (fun x => decide (s ≤ dayOf x.ts_utc) && decide (dayOf x.ts_utc ≤ e)) = []
  · rw [hf]; rfl
  · rw [apply_date_of_ne_nil _ s e hf, List.filter_filter]
    apply List.filter_congr
    intro x _
    rw [Bool.and_self]

/-- Claim C4: `conversion` equals the intersection cardinality of the two
non-absent video-id sets divided by the cardinality of the watch side's
set; it is 0 when that set is empty (no division error) and 0 when the
two sets are disjoint. -/
theorem claim_C4_conversion (w l : List Event) :
    (video_ids w = ∅ → conversion w l = 0) ∧
    (video_ids w ∩ video_ids l = ∅ → conversion w l = 0) ∧
    ((video_ids w).Nonempty →
      conversion w l = ((video_ids w ∩ video_ids l).card : ℚ) / ((video_ids w).card : ℚ)) := by
  refine ⟨fun h => ?_, fun h => ?_, fun h => ?_⟩
  · simp [conversion, h]
  · by_cases hw : (video_ids w).Nonempty
    · rw [conversion, if_pos hw, h]
      simp
    · rw [conversion, if_neg hw]
  · rw [conversion, if_pos h]

/-- Claim C1: for every text, `parse_date_link_txt` produces exactly
`min(k, m)` candidate rows before timestamp-validity filtering, where `k`
and `m` count the occurrences of the `Date:` and `Link:` patterns; the
i-th date is paired with the i-th url, each row's video id is extracted
from its url by the `/video/<digits>` pattern, and the spec's two-record
example yields resource ids `111` then `222`. -/
theorem claim_C1_extraction_pairing (text : String) :
    (candidate_rows text).length = min (findallDate text).length (findallLink text).length ∧
    (∀ i, i < min (findallDate text).length (findallLink text).length →
      ∃ d u, (findallDate text)[i]? = some d ∧ (findallLink text)[i]? = some u ∧
        (candidate_rows text)[i]? = some (d, u, extract_video_id u)) ∧
    (candidate_rows
        "Date: Jan 1, 2024 12:00:00 UTC\nLink: https://x.com/@u/video/111\nDate: Jan 2, 2024 12:00:00 UTC\nLink: https://x.com/@u/video/222").map
        (fun r => r.2.2)
      = [some "111", some "222"] := by
  refine ⟨?_, ?_, by decide⟩
  · simp [candidate_rows, date_link_rows]
  · intro i hi
    have hd : i < (findallDate text).length := lt_of_lt_of_le hi (min_le_left _ _)
    have hu : i < (findallLink text).length := lt_of_lt_of_le hi (min_le_right _ _)
    have hz : i < ((findallDate text).zip (findallLink text)).length := by
      rw [List.length_zip]; exact lt_min hd hu
    refine ⟨(findallDate text)[i], (findallLink text)[i],
      List.getElem?_eq_getElem hd, List.getElem?_eq_getElem hu, ?_⟩
    have hmap : (candidate_rows text)[i]?
        = (((findallDate text).zip (findallLink text))[i]?).map
            (fun r => (r.1, r.2, extract_video_id r.2)) := by
      simp [candidate_rows, date_link_rows]
    rw [hmap, List.getElem?_eq_getElem hz, @List.getElem_zip _ _ _ _ i hz]
    rfl

theorem claim_C1_witness :
    ∃ d u,
      (findallDate
          "Date: Jan 1, 2024 12:00:00 UTC\nLink: https://x.com/@u/video/111\nDate: Jan 2, 2024 12:00:00 UTC\nLink: https://x.com/@u/video/222")[0]?
        = some d ∧
      (findallLink
          "Date: Jan 1, 2024 12:00:00 UTC\nLink: https://x.com/@u/video/111\nDate: Jan 2, 2024 12:00:00 UTC\nLink: https://x.com/@u/video/222")[0]?
        = some u ∧
      (candidate_rows
          "Date: Jan 1, 2024 12:00:00 UTC\nLink: https://x.com/@u/video/111\nDate: Jan 2, 2024 12:00:00 UTC\nLink: https://x.com/@u/video/222")[0]?
        = some (d, u, extract_video_id u) :=
  (claim_C1_extraction_pairing
      "Date: Jan 1, 2024 12:00:00 UTC\nLink: https://x.com/@u/video/111\nDate: Jan 2, 2024 12:00:00 UTC\nLink: https://x.com/@u/video/222").2.1
    0 (by decide)

/-- Timestamp parser used in the concrete malformed-record example: only
the date strings `D1` and `D3` parse; `D2` models an unparseable date. -/
def pts_demo : String → Option Int :=
  fun s => if s = "D1" then some 100 else if s = "D3" then some 300 else none

/-- Claim C6: extraction is total — it is a function returning a list for
every text and parser — the empty text and a text where either marker is
absent yield the empty sequence, at most `min(k, m)` events survive, every
surviving event comes from a row of the pairing computed before
timestamp-validity filtering (so a dropped pair does not shift later
pairs), and on a three-pair text whose middle date fails to parse the
output keeps the first and third pairs intact. -/
theorem claim_C6_extraction_total (pts : String → Option Int) (text : String) :
    parse_date_link_txt pts "" = [] ∧
    (findallDate text = [] ∨ findallLink text = [] → parse_date_link_txt pts text = []) ∧
    (parse_date_link_txt pts text).length ≤ (date_link_rows text).length ∧
    (∀ e ∈ parse_date_link_txt pts text,
      ∃ (i : Nat) (d u : String), (date_link_rows text)[i]? = some (d, u) ∧
        pts d = some e.ts_utc ∧ e.url = u ∧ e.video_id = extract_video_id u) ∧
    parse_date_link_txt pts_demo
        "Date: D1 UTC\nLink: http://a/video/1\nDate: D2 UTC\nLink: http://b/video/2\nDate: D3 UTC\nLink: http://c/video/3"
      = [⟨100, "http://a/video/1", some "1"⟩, ⟨300, "http://c/video/3", some "3"⟩] := by
  refine ⟨rfl, ?_, List.length_filterMap_le _ _, ?_, by decide⟩
  · intro h
    rcases h with h | h <;> simp [parse_date_link_txt, date_link_rows, h]
  · intro e he
    rw [parse_date_link_txt] at he
    obtain ⟨r, hr, hfr⟩ := List.mem_filterMap.mp he
    obtain ⟨t, hpt, heq⟩ := Option.map_eq_some'.mp hfr
    obtain ⟨i, hi⟩ := List.getElem?_of_mem hr
    subst heq
    exact ⟨i, r.1, r.2, hi, hpt, rfl, rfl⟩

theorem claim_C6_witness :
    parse_date_link_txt pts_demo "" = [] ∧ parse_date_link_txt pts_demo "no markers here" = [] :=
  ⟨(claim_C6_extraction_total pts_demo "no markers here").1,
   (claim_C6_extraction_total pts_demo "no markers here").2.1 (Or.inl (by decide))⟩

theorem claim_C4_witness :
    (video_ids [⟨0, "u", some "1"⟩] ∩ video_ids [⟨0, "v", some "2"⟩] = ∅) ∧
      conversion [⟨0, "u", some "1"⟩] [⟨0, "v", some "2"⟩] = 0 :=
  ⟨by decide, (claim_C4_conversion [⟨0, "u", some "1"⟩] [⟨0, "v", some "2"⟩]).2.1 (by decide)⟩

lemma insertBy_perm (r : α → α → Bool) (e : α) (l : List α) : (insertBy r e l).Perm (e :: l) := by
  induction l with
  | nil => exact List.Perm.refl _
  | cons x xs ih =>
    rw [insertBy]
    split
    · exact List.Perm.refl _
    · exact (ih.cons x).trans (List.Perm.swap e x xs)

lemma sortBy_perm (r : α → α → Bool) (l : List α) : (sortBy r l).Perm l := by
  induction l with
  | nil => exact List.Perm.refl _
  | cons x xs ih => exact (insertBy_perm r x (sortBy r xs)).trans (ih.cons x)

lemma insertBy_pairwise (r : α → α → Bool)
    (htot : ∀ a b, r a b = false → r b a = true)
    (htrans : ∀ a b c, r a b = true → r b c = true → r a c = true)
    (e : α) (l : List α) (hl : l.Pairwise (fun a b => r a b = true)) :
    (insertBy r e l).Pairwise (fun a b => r a b = true) := by
  induction l with
  | nil => simp [insertBy]
  | cons x xs ih =>
    obtain ⟨hx, hxs⟩ := List.pairwise_cons.mp hl
    rw [insertBy]
    split
    · rename_i hre
      refine List.pairwise_cons.mpr ⟨?_, hl⟩
      intro y hy
      rcases List.mem_cons.mp hy with hy | hy
      · rw [hy]; exact hre
      · exact htrans e x y hre (hx y hy)
    · rename_i hre
      refine List.pairwise_cons.mpr ⟨?_, ih hxs⟩
      intro y hy
      have hmem : y ∈ e :: xs := (insertBy_perm r e xs).mem_iff.mp hy
      rcases List.mem_cons.mp hmem with hy2 | hy2
      · rw [hy2]
        exact htot e x (Bool.eq_false_iff.mpr hre)
      · exact hx y hy2

lemma sortBy_pairwise (r : α → α → Bool)
    (htot : ∀ a b, r a b = false → r b a = true)
    (htrans : ∀ a b c, r a b = true → r b c = true → r a c = true)
    (l : List α) : (sortBy r l).Pairwise (fun a b => r a b = true) := by
  induction l with
  | nil => simp [sortBy]
  | cons x xs ih => exact insertBy_pairwise r htot htrans x (sortBy r xs) ih

lemma sortBy_eq_self (r : α → α → Bool) (l : List α)
    (hl : l.Pairwise (fun a b => r a b = true)) : sortBy r l = l := by
  induction l with
  | nil => rfl
  | cons x xs ih =>
    obtain ⟨hx, hxs⟩ := List.pairwise_cons.mp hl
    show insertBy r x (sortBy r xs) = x :: xs
    rw [ih hxs]
    cases xs with
    | nil => rfl
    | cons y ys => rw [insertBy, if_pos (hx y (by simp))]

lemma tsLe_tot : ∀ a b : Event, tsLe a b = false → tsLe b a = true := by
  intro a b h
  simp only [tsLe, decide_eq_true_eq]
  simp only [tsLe, decide_eq_false_iff_not] at h
  omega

lemma tsLe_trans : ∀ a b c : Event, tsLe a b = true → tsLe b c = true → tsLe a c = true := by
  intro a b c h1 h2
  simp only [tsLe, decide_eq_true_eq] at h1 h2 ⊢
  omega

lemma tsGe_tot : ∀ a b : Event, tsGe a b = false → tsGe b a = true := by
  intro a b h
  simp only [tsGe, decide_eq_true_eq]
  simp only [tsGe, decide_eq_false_iff_not] at h
  omega

lemma tsGe_trans : ∀ a b c : Event, tsGe a b = true → tsGe b c = true → tsGe a c = true := by
  intro a b c h1 h2
  simp only [tsGe, decide_eq_true_eq] at h1 h2 ⊢
  omega

lemma foldl_max_mem (xs : List Int) : ∀ a : Int, xs.foldl max a ∈ a :: xs := by
  induction xs with
  | nil => intro a; simp
  | cons x t ih =>
    intro a
    have := ih (max a x)
    rcases max_choice a x with h | h <;> rw [h] at this <;>
      · rw [List.foldl_cons, h]
        rcases List.mem_cons.mp this with h2 | h2 <;> simp [h2]

lemma le_foldl_max (xs : List Int) : ∀ (a y : Int), y ∈ a :: xs → y ≤ xs.foldl max a := by
  induction xs with
  | nil => intro a y hy; simp at hy; simp [hy]
  | cons x t ih =>
    intro a y hy
    rw [List.foldl_cons]
    rcases List.mem_cons.mp hy with h | h
    · subst h
      exact le_trans (le_max_left y x) (ih (max y x) (max y x) (by simp))
    · rcases List.mem_cons.mp h with h2 | h2
      · subst h2
        exact le_trans (le_max_right a y) (ih (max a y) (max a y) (by simp))
      · exact ih (max a x) y (by simp [h2])

lemma foldl_min_mem (xs : List Int) : ∀ a : Int, xs.foldl min a ∈ a :: xs := by
  induction xs with
  | nil => intro a; simp
  | cons x t ih =>
    intro a
    have := ih (min a x)
    rcases min_choice a x with h | h <;> rw [h] at this <;>
      · rw [List.foldl_cons, h]
        rcases List.mem_cons.mp this with h2 | h2 <;> simp [h2]

lemma foldl_min_le (xs : List Int) : ∀ (a y : Int), y ∈ a :: xs → xs.foldl min a ≤ y := by
  induction xs with
  | nil => intro a y hy; simp at hy; simp [hy]
  | cons x t ih =>
    intro a y hy
    rw [List.foldl_cons]
    rcases List.mem_cons.mp hy with h | h
    · subst h
      exact le_trans (ih (min y x) (min y x) (by simp)) (min_le_left y x)
    · rcases List.mem_cons.mp h with h2 | h2
      · subst h2
        exact le_trans (ih (min a y) (min a y) (by simp)) (min_le_right a y)
      · exact ih (min a x) y (by simp [h2])

lemma maxList_mem (l : List Int) (h : l ≠ []) : maxList l ∈ l := by
  cases l with
  | nil => exact absurd rfl h
  | cons x xs => exact foldl_max_mem xs x

lemma le_maxList (l : List Int) (y : Int) (hy : y ∈ l) : y ≤ maxList l := by
  cases l with
  | nil => simp at hy
  | cons x xs => exact le_foldl_max xs x y hy

lemma minList_mem (l : List Int) (h : l ≠ []) : minList l ∈ l := by
  cases l with
  | nil => exact absurd rfl h
  | cons x xs => exact foldl_min_mem xs x

lemma minList_le (l : List Int) (y : Int) (hy : y ∈ l) : minList l ≤ y := by
  cases l with
  | nil => simp at hy
  | cons x xs => exact foldl_min_le xs x y hy

lemma maxList_spec (l : List Int) (x : Int) (hx : x ∈ l) (hall : ∀ y ∈ l, y ≤ x) :
    maxList l = x := by
  have h1 : maxList l ≤ x := hall _ (maxList_mem l (by rintro rfl; simp at hx))
  exact le_antisymm h1 (le_maxList l x hx)

lemma dropDupUrls_props (l : List Event)
    (hl : l.Pairwise (fun a b => b.ts_utc ≤ a.ts_utc)) :
    ∀ (seen : List String), ∀ e ∈ dropDupUrlsAux seen l,
      e.url ∉ seen ∧ e ∈ l ∧ ∀ f ∈ l, f.url = e.url → f.ts_utc ≤ e.ts_utc := by
  induction l with
  | nil => intro seen e he; simp [dropDupUrlsAux] at he
  | cons x t ih =>
    obtain ⟨hx, ht⟩ := List.pairwise_cons.mp hl
    intro seen e he
    rw [dropDupUrlsAux] at he
    split at he
    · rename_i hseen
      obtain ⟨h1, h2, h3⟩ := ih ht seen e he
      refine ⟨h1, List.mem_cons.mpr (Or.inr h2), ?_⟩
      intro f hf hfe
      rcases List.mem_cons.mp hf with hf | hf
      · subst hf
        exact absurd (hfe ▸ hseen) h1
      · exact h3 f hf hfe
    · rename_i hseen
      rcases List.mem_cons.mp he with he | he
      · subst he
        refine ⟨hseen, List.mem_cons.mpr (Or.inl rfl), ?_⟩
        intro f hf hfe
        rcases List.mem_cons.mp hf with hf | hf
        · subst hf; exact le_refl _
        · exact hx f hf
      · obtain ⟨h1, h2, h3⟩ := ih ht (x.url :: seen) e he
        have hne : e.url ≠ x.url := fun h => h1 (by simp [h])
        refine ⟨fun h => h1 (by simp [h]), List.mem_cons.mpr (Or.inr h2), ?_⟩
        intro f hf hfe
        rcases List.mem_cons.mp hf with hf | hf
        · subst hf; exact absurd hfe (fun h => hne h.symm)
        · exact h3 f hf hfe

lemma dropDupUrls_nodup (l : List Event) : ∀ seen : List String,
    ((dropDupUrlsAux seen l).map Event.url).Nodup ∧
      ∀ u ∈ (dropDupUrlsAux seen l).map Event.url, u ∉ seen := by
  induction l with
  | nil => intro seen; simp [dropDupUrlsAux]
  | cons x t ih =>
    intro seen
    rw [dropDupUrlsAux]
    split
    · exact ih seen
    · rename_i hseen
      obtain ⟨h1, h2⟩ := ih (x.url :: seen)
      refine ⟨?_, ?_⟩
      · rw [List.map_cons, List.nodup_cons]
        exact ⟨fun h => (h2 _ h) (by simp), h1⟩
      · intro u hu
        rw [List.map_cons] at hu
        rcases List.mem_cons.mp hu with h | h
        · rw [h]; exact hseen
        · intro hin
          exact h2 u h (List.mem_cons.mpr (Or.inr hin))

lemma dropDupUrls_covers (l : List Event) : ∀ (seen : List String) (u : String),
    u ∈ l.map Event.url → u ∈ (dropDupUrlsAux seen l).map Event.url ∨ u ∈ seen := by
  induction l with
  | nil => intro seen u hu; simp at hu
  | cons x t ih =>
    intro seen u hu
    rw [dropDupUrlsAux]
    rcases List.mem_cons.mp hu with hu | hu
    · subst hu
      split
      · rename_i hseen; exact Or.inr hseen
      · exact Or.inl (by simp)
    · split
      · exact ih seen u hu
      · rcases ih (x.url :: seen) u hu with h | h
        · exact Or.inl (by simp [h])
        · rcases List.mem_cons.mp h with h | h
          · subst h; exact Or.inl (by simp)
          · exact Or.inr h

/-- Claim C7: the consumer-facing deduplication (sort descending by
timestamp, drop duplicate urls keeping the first) retains exactly one
event per distinct `source_url` of the input — no url is lost, none is
duplicated — and the retained event carries the greatest timestamp among
the input events with that url. -/
theorem claim_C7_dedup_most_recent (df : List Event) :
    ((dedup_recent df).map Event.url).Nodup ∧
    (∀ u, u ∈ df.map Event.url ↔ u ∈ (dedup_recent df).map Event.url) ∧
    (∀ e ∈ dedup_recent df, e ∈ df ∧
      e.ts_utc = maxList ((df.filter (fun f => f.url == e.url)).map Event.ts_utc)) := by
  have hperm : (sortBy tsGe df).Perm df := sortBy_perm tsGe df
  have hsorted : (sortBy tsGe df).Pairwise (fun a b => b.ts_utc ≤ a.ts_utc) := by
    have := sortBy_pairwise tsGe tsGe_tot tsGe_trans df
    exact this.imp (fun h => by simpa [tsGe] using h)
  refine ⟨(dropDupUrls_nodup (sortBy tsGe df) []).1, ?_, ?_⟩
  · intro u
    constructor
    · intro hu
      have hu2 : u ∈ (sortBy tsGe df).map Event.url := (hperm.map Event.url).mem_iff.mpr hu
      rcases dropDupUrls_covers (sortBy tsGe df) [] u hu2 with h | h
      · exact h
      · simp at h
    · intro hu
      obtain ⟨e, he, heq⟩ := List.mem_map.mp hu
      obtain ⟨-, h2, -⟩ := dropDupUrls_props (sortBy tsGe df) hsorted [] e he
      exact heq ▸ List.mem_map.mpr ⟨e, hperm.mem_iff.mp h2, rfl⟩
  · intro e he
    obtain ⟨-, h2, h3⟩ := dropDupUrls_props (sortBy tsGe df) hsorted [] e he
    have hedf : e ∈ df := hperm.mem_iff.mp h2
    refine ⟨hedf, ?_⟩
    refine (maxList_spec _ e.ts_utc ?_ ?_).symm
    · exact List.mem_map.mpr ⟨e, List.mem_filter.mpr ⟨hedf, by simp⟩, rfl⟩
    · intro y hy
      obtain ⟨f, hf, heq⟩ := List.mem_map.mp hy
      obtain ⟨hfdf, hfurl⟩ := List.mem_filter.mp hf
      subst heq
      exact h3 f (hperm.mem_iff.mpr hfdf) (by simpa using hfurl)

theorem claim_C7_witness :
    ((⟨9, "u", none⟩ : Event) ∈ ([⟨5, "u", none⟩, ⟨9, "u", none⟩, ⟨7, "v", none⟩] : List Event) ∧
      (⟨9, "u", none⟩ : Event).ts_utc
        = maxList (([⟨5, "u", none⟩, ⟨9, "u", none⟩, ⟨7, "v", none⟩].filter
            (fun f => f.url == (⟨9, "u", none⟩ : Event).url)).map Event.ts_utc)) :=
  (claim_C7_dedup_most_recent [⟨5, "u", none⟩, ⟨9, "u", none⟩, ⟨7, "v", none⟩]).2.2
    ⟨9, "u", none⟩ (by decide)

lemma sessionsGo_snd_toFinset (rest : List Event) : ∀ (prev : Event) (sid : Nat),
    (((prev, sid) :: sessionsGo 30 prev sid rest).map Prod.snd).toFinset
      = Finset.Icc sid (sid + (wrappedFlags.wrappedFlagsGo prev rest).count true) := by
  induction rest with
  | nil => intro prev sid; simp [sessionsGo, wrappedFlags.wrappedFlagsGo]
  | cons e t ih =>
    intro prev sid
    rw [sessionsGo]
    by_cases hc : e.ts_utc - prev.ts_utc > 60 * 30
    · have hd : (decide (e.ts_utc - prev.ts_utc > 60 * 30)) = true := by simpa using hc
      have h1 : (((e, sid + 1) :: sessionsGo 30 e (sid + 1) t).map Prod.snd).toFinset
          = Finset.Icc (sid + 1) (sid + 1 + (wrappedFlags.wrappedFlagsGo e t).count true) :=
        ih e (sid + 1)
      simp only [if_pos hc, List.map_cons, List.toFinset_cons] at h1 ⊢
      rw [h1, wrappedFlags.wrappedFlagsGo, hd]
      ext k
      simp only [Finset.mem_insert, Finset.mem_Icc, List.count_cons_self]
      omega
    · have hd : (decide (e.ts_utc - prev.ts_utc > 60 * 30)) = false := by simpa using hc
      have h1 : (((e, sid) :: sessionsGo 30 e sid t).map Prod.snd).toFinset
          = Finset.Icc sid (sid + (wrappedFlags.wrappedFlagsGo e t).count true) := ih e sid
      simp only [if_neg hc, List.map_cons, List.toFinset_cons] at h1 ⊢
      rw [h1, wrappedFlags.wrappedFlagsGo, hd]
      have hcount : (false :: wrappedFlags.wrappedFlagsGo e t).count true
          = (wrappedFlags.wrappedFlagsGo e t).count true := by simp
      rw [hcount]
      ext k
      simp only [Finset.mem_insert, Finset.mem_Icc]
      omega

/-- Claim C10: the session count computed inline in `render_wrapped`
(sum of new-session flags at the fixed 30-minute gap) equals the number
of distinct `session_id` values produced by `add_sessions` with
`gap_minutes = 30`: the two session-boundary implementations agree. -/
theorem claim_C10_session_count_equiv (watch_f : List Event) :
    ((add_sessions watch_f 30).map Prod.snd).toFinset.card = wrapped_session_count watch_f := by
  rcases hs : sortBy tsLe watch_f with _ | ⟨e, rest⟩
  · have hempty : watch_f = [] := by
      have hperm := sortBy_perm tsLe watch_f
      rw [hs] at hperm
      have hlen := hperm.length_eq
      simp only [List.length_nil] at hlen
      cases watch_f with
      | nil => rfl
      | cons a as => simp at hlen
    rw [add_sessions, hs, hempty]
    simp [wrapped_session_count]
  · have hne : watch_f ≠ [] := by
      intro h
      rw [h] at hs
      simp [sortBy] at hs
    rw [add_sessions, hs, sessionsGo_snd_toFinset rest e 1, Nat.card_Icc]
    rw [wrapped_session_count, if_neg (by simp [hne]), hs, wrappedFlags]
    simp [List.count_cons]
    omega

lemma mem_dedupAdj (l : List Nat) : ∀ x, x ∈ dedupAdj l ↔ x ∈ l := by
  induction l with
  | nil => simp [dedupAdj]
  | cons a t ih =>
    cases t with
    | nil => simp [dedupAdj]
    | cons b u =>
      intro x
      rw [dedupAdj]
      split
      · rename_i hab
        rw [ih x, hab]
        simp [List.mem_cons]
      · simp [List.mem_cons, ih x]

lemma dedupAdj_pairwise_lt (l : List Nat) (hl : l.Pairwise (· ≤ ·)) :
    (dedupAdj l).Pairwise (· < ·) := by
  induction l with
  | nil => simp [dedupAdj]
  | cons a t ih =>
    cases t with
    | nil => simp [dedupAdj]
    | cons b u =>
      obtain ⟨ha, hbu⟩ := List.pairwise_cons.mp hl
      rw [dedupAdj]
      split
      · exact ih hbu
      · rename_i hab
        refine List.pairwise_cons.mpr ⟨?_, ih hbu⟩
        intro y hy
        have hy2 : y ∈ b :: u := (mem_dedupAdj (b :: u) y).mp hy
        have h1 : a ≤ b := ha b (by simp)
        have h2 : a < b := lt_of_le_of_ne h1 hab
        rcases List.mem_cons.mp hy2 with hy3 | hy3
        · rw [hy3]; exact h2
        · have h3 : b ≤ y := (List.pairwise_cons.mp hbu).1 y hy3
          omega

lemma sessionsGo_map_fst (g : Int) : ∀ (l : List Event) (prev : Event) (sid : Nat),
    (sessionsGo g prev sid l).map Prod.fst = l := by
  intro l
  induction l with
  | nil => intro prev sid; rfl
  | cons e t ih =>
    intro prev sid
    simp only [sessionsGo, List.map_cons]
    rw [ih]

lemma add_sessions_map_fst (watch : List Event) (g : Int) :
    (add_sessions watch g).map Prod.fst = sortBy tsLe watch := by
  rcases hs : sortBy tsLe watch with _ | ⟨e, rest⟩
  · rw [add_sessions, hs]; rfl
  · rw [add_sessions, hs]
    simp only [List.map_cons, sessionsGo_map_fst]

/-- Joint invariant of the per-event session assignment: timestamps and
session ids are monotone along the output, and an event of a strictly
later session lies more than the gap threshold after an event of an
earlier session. -/
def sessR (g : Int) (a b : Event × Nat) : Prop :=
  a.1.ts_utc ≤ b.1.ts_utc ∧ a.2 ≤ b.2 ∧ (a.2 < b.2 → a.1.ts_utc + 60 * g < b.1.ts_utc)

lemma sessionsGo_pairwise (g : Int) : ∀ (l : List Event) (prev : Event) (sid : Nat),
    l.Pairwise (fun a b => a.ts_utc ≤ b.ts_utc) →
    (∀ x ∈ l, prev.ts_utc ≤ x.ts_utc) →
    ((prev, sid) :: sessionsGo g prev sid l).Pairwise (sessR g) := by
  intro l
  induction l with
  | nil =>
    intro prev sid _ _
    simp [sessionsGo]
  | cons e t ih =>
    intro prev sid hl hp
    obtain ⟨he, ht⟩ := List.pairwise_cons.mp hl
    simp only [sessionsGo]
    by_cases hc : e.ts_utc - prev.ts_utc > 60 * g
    · rw [if_pos hc]
      have hrec := ih e (sid + 1) ht he
      refine List.pairwise_cons.mpr ⟨?_, hrec⟩
      intro y hy
      rcases List.mem_cons.mp hy with hy | hy
      · rw [hy]
        exact ⟨hp e (by simp), show sid ≤ sid + 1 by omega,
          fun _ => show prev.ts_utc + 60 * g < e.ts_utc by omega⟩
      · obtain ⟨hts, hsle, -⟩ := (List.pairwise_cons.mp hrec).1 y hy
        have hts2 : e.ts_utc ≤ y.1.ts_utc := hts
        have hsle2 : sid + 1 ≤ y.2 := hsle
        refine ⟨le_trans (hp e (by simp)) hts2, show sid ≤ y.2 by omega, fun _ => ?_⟩
        show prev.ts_utc + 60 * g < y.1.ts_utc
        have h1 : prev.ts_utc + 60 * g < e.ts_utc := by omega
        exact lt_of_lt_of_le h1 hts2
    · rw [if_neg hc]
      have hrec := ih e sid ht he
      refine List.pairwise_cons.mpr ⟨?_, hrec⟩
      intro y hy
      rcases List.mem_cons.mp hy with hy | hy
      · rw [hy]
        exact ⟨hp e (by simp), le_refl _, fun h => absurd h (lt_irrefl _)⟩
      · obtain ⟨hts, hsle, himp⟩ := (List.pairwise_cons.mp hrec).1 y hy
        have hts2 : e.ts_utc ≤ y.1.ts_utc := hts
        have hsle2 : sid ≤ y.2 := hsle
        refine ⟨le_trans (hp e (by simp)) hts2, hsle2, fun hlt => ?_⟩
        show prev.ts_utc + 60 * g < y.1.ts_utc
        have h3 : e.ts_utc + 60 * g < y.1.ts_utc := himp (show (e, sid).2 < y.2 from hlt)
        have h4 : prev.ts_utc ≤ e.ts_utc := hp e (by simp)
        omega

lemma add_sessions_pairwise (watch : List Event) (g : Int) :
    (add_sessions watch g).Pairwise (sessR g) := by
  rcases hs : sortBy tsLe watch with _ | ⟨e, rest⟩
  · rw [add_sessions, hs]; simp
  · have hsorted : (sortBy tsLe watch).Pairwise (fun a b => a.ts_utc ≤ b.ts_utc) :=
      (sortBy_pairwise tsLe tsLe_tot tsLe_trans watch).imp (fun h => by simpa [tsLe] using h)
    rw [hs] at hsorted
    obtain ⟨he, ht⟩ := List.pairwise_cons.mp hsorted
    rw [add_sessions, hs]
    exact sessionsGo_pairwise g rest e 1 ht he

lemma add_sessions_cross (watch : List Event) (g : Int) {x y : Event × Nat}
    (hx : x ∈ add_sessions watch g) (hy : y ∈ add_sessions watch g) (hlt : x.2 < y.2) :
    x.1.ts_utc + 60 * g < y.1.ts_utc := by
  have hpw2 : (add_sessions watch g).Pairwise (fun a b => sessR g a b ∨ sessR g b a) :=
    (add_sessions_pairwise watch g).imp Or.inl
  have hsym : Symmetric (fun a b : Event × Nat => sessR g a b ∨ sessR g b a) :=
    fun a b h => h.symm
  have hne : x ≠ y := by
    intro h
    rw [h] at hlt
    exact lt_irrefl _ hlt
  rcases hpw2.forall hsym hx hy hne with h | h
  · exact h.2.2 hlt
  · exact absurd hlt (not_lt.mpr h.2.1)

lemma perm_flatMap_filter : ∀ (keys : List Nat) (ws : List (Event × Nat)),
    keys.Pairwise (· ≠ ·) → (∀ p ∈ ws, p.2 ∈ keys) →
    (keys.flatMap (fun k => ws.filter (fun q => q.2 == k))).Perm ws := by
  intro keys
  induction keys with
  | nil =>
    intro ws _ hcov
    cases ws with
    | nil => simp
    | cons p t => exact absurd (hcov p (by simp)) (by simp)
  | cons k ks ih =>
    intro ws hnd hcov
    obtain ⟨hk, hks⟩ := List.pairwise_cons.mp hnd
    rw [List.flatMap_cons]
    have hstep : ∀ j ∈ ks, ws.filter (fun q => q.2 == j)
        = (ws.filter (fun q => !(q.2 == k))).filter (fun q => q.2 == j) := by
      intro j hj
      rw [List.filter_filter]
      apply List.filter_congr
      intro q _
      by_cases hqj : q.2 = j
      · have hjk : (j == k) = false := beq_eq_false_iff_ne.mpr (Ne.symm (hk j hj))
        simp [hqj, hjk]
      · simp [hqj]
    rw [List.flatMap_congr hstep]
    have hcov2 : ∀ p ∈ ws.filter (fun q => !(q.2 == k)), p.2 ∈ ks := by
      intro p hp
      obtain ⟨hpw, hpk⟩ := List.mem_filter.mp hp
      rcases List.mem_cons.mp (hcov p hpw) with h | h
      · rw [h] at hpk; simp at hpk
      · exact h
    have hih := ih (ws.filter (fun q => !(q.2 == k))) hks hcov2
    exact (List.Perm.append_left _ hih).trans (List.filter_append_perm _ ws)

/-- Claim C2: for every collection and positive gap threshold the
sessions partition the input — each event receives exactly one session
assignment and the assigned events are a permutation of the input, the
per-session event counts sum to the collection size, each session's start
does not exceed its end, and the sessions are disjoint in time (every
session ends strictly before the next begins) and hence ordered by their
start timestamp. -/
theorem claim_C2_session_partition (watch : List Event) (g : Int) (hg : 0 < g) :
    ((add_sessions watch g).map Prod.fst).Perm watch ∧
    ((session_stats (add_sessions watch g)).map Session.events).sum = watch.length ∧
    (∀ s ∈ session_stats (add_sessions watch g), s.session_start ≤ s.session_end) ∧
    (session_stats (add_sessions watch g)).Pairwise
      (fun a b => a.session_end < b.session_start) := by
  have hfst : (add_sessions watch g).map Prod.fst = sortBy tsLe watch :=
    add_sessions_map_fst watch g
  have hperm1 : ((add_sessions watch g).map Prod.fst).Perm watch := by
    rw [hfst]; exact sortBy_perm tsLe watch
  have hsnd : ((add_sessions watch g).map Prod.snd).Pairwise (fun a b : Nat => a ≤ b) :=
    List.Pairwise.map Prod.snd (fun a b h => h.2.1) (add_sessions_pairwise watch g)
  have hkeys : groupKeys (add_sessions watch g)
      = dedupAdj ((add_sessions watch g).map Prod.snd) := by
    rw [groupKeys, sortBy_eq_self]
    exact hsnd.imp (fun h => by simpa using h)
  have hklt : (groupKeys (add_sessions watch g)).Pairwise (· < ·) := by
    rw [hkeys]; exact dedupAdj_pairwise_lt _ hsnd
  have hkne : (groupKeys (add_sessions watch g)).Pairwise (· ≠ ·) :=
    hklt.imp (fun h => Nat.ne_of_lt h)
  have hcov : ∀ p ∈ add_sessions watch g, p.2 ∈ groupKeys (add_sessions watch g) := by
    intro p hp
    rw [hkeys, mem_dedupAdj]
    exact List.mem_map_of_mem Prod.snd hp
  have hpermG := perm_flatMap_filter (groupKeys (add_sessions watch g))
    (add_sessions watch g) hkne hcov
  have hgrpne : ∀ k ∈ groupKeys (add_sessions watch g),
      (add_sessions watch g).filter (fun p => p.2 == k) ≠ [] := by
    intro k hk
    rw [hkeys, mem_dedupAdj] at hk
    obtain ⟨p, hp, hpk⟩ := List.mem_map.mp hk
    intro hnil
    have hmem : p ∈ (add_sessions watch g).filter (fun q => q.2 == k) :=
      List.mem_filter.mpr ⟨hp, by simp [hpk]⟩
    rw [hnil] at hmem
    simp at hmem
  refine ⟨hperm1, ?_, ?_, ?_⟩
  · have hmapev : (session_stats (add_sessions watch g)).map Session.events
        = (groupKeys (add_sessions watch g)).map
            (fun k => ((add_sessions watch g).filter (fun p => p.2 == k)).length) := by
      rw [session_stats, List.map_map]
      rfl
    have hlen := hpermG.length_eq
    rw [List.length_flatMap] at hlen
    have hws_len : (add_sessions watch g).length = watch.length := by
      have h2 := hperm1.length_eq
      simpa using h2
    rw [hws_len] at hlen
    rw [hmapev]
    exact hlen
  · intro s hs
    rw [session_stats] at hs
    obtain ⟨k, hk, hmk⟩ := List.mem_map.mp hs
    subst hmk
    have htssne : ((add_sessions watch g).filter (fun p => p.2 == k)).map
        (fun p => p.1.ts_utc) ≠ [] := by
      rw [Ne, List.map_eq_nil_iff]
      exact hgrpne k hk
    exact minList_le _ _ (maxList_mem _ htssne)
  · rw [session_stats]
    rw [List.pairwise_map]
    apply List.Pairwise.imp_of_mem ?_ hklt
    intro a b ha hb hab
    have htssa : ((add_sessions watch g).filter (fun p => p.2 == a)).map
        (fun p => p.1.ts_utc) ≠ [] := by
      rw [Ne, List.map_eq_nil_iff]; exact hgrpne a ha
    have htssb : ((add_sessions watch g).filter (fun p => p.2 == b)).map
        (fun p => p.1.ts_utc) ≠ [] := by
      rw [Ne, List.map_eq_nil_iff]; exact hgrpne b hb
    obtain ⟨pa, hpa, hpaeq⟩ := List.mem_map.mp (maxList_mem _ htssa)
    obtain ⟨pb, hpb, hpbeq⟩ := List.mem_map.mp (minList_mem _ htssb)
    obtain ⟨hpaw, hpak⟩ := List.mem_filter.mp hpa
    obtain ⟨hpbw, hpbk⟩ := List.mem_filter.mp hpb
    have hpak2 : pa.2 = a := by simpa using hpak
    have hpbk2 : pb.2 = b := by simpa using hpbk
    have hcross : pa.1.ts_utc + 60 * g < pb.1.ts_utc := by
      apply add_sessions_cross watch g hpaw hpbw
      rw [hpak2, hpbk2]
      exact hab
    show maxList _ < minList _
    rw [← hpaeq, ← hpbeq]
    omega

theorem claim_C2_witness :
    (0 : Int) < 30 ∧
    (((add_sessions [⟨0, "a", none⟩, ⟨7200, "b", none⟩] 30).map Prod.fst).Perm
        [⟨0, "a", none⟩, ⟨7200, "b", none⟩] ∧
      ((session_stats (add_sessions [⟨0, "a", none⟩, ⟨7200, "b", none⟩] 30)).map
          Session.events).sum = ([⟨0, "a", none⟩, ⟨7200, "b", none⟩] : List Event).length ∧
      (∀ s ∈ session_stats (add_sessions [⟨0, "a", none⟩, ⟨7200, "b", none⟩] 30),
        s.session_start ≤ s.session_end) ∧
      (session_stats (add_sessions [⟨0, "a", none⟩, ⟨7200, "b", none⟩] 30)).Pairwise
        (fun a b => a.session_end < b.session_start)) :=
  ⟨by decide, claim_C2_session_partition [⟨0, "a", none⟩, ⟨7200, "b", none⟩] 30 (by decide)⟩

lemma sessionsGo_chain (g : Int) : ∀ (l : List Event) (prev : Event) (sid : Nat),
    ((prev, sid) :: sessionsGo g prev sid l).Chain'
      (fun a b => b.2 = if b.1.ts_utc - a.1.ts_utc > 60 * g then a.2 + 1 else a.2) := by
  intro l
  induction l with
  | nil => intro prev sid; simp [sessionsGo]
  | cons e t ih =>
    intro prev sid
    simp only [sessionsGo]
    by_cases hc : e.ts_utc - prev.ts_utc > 60 * g
    · rw [if_pos hc]
      exact List.chain'_cons.mpr ⟨by simp [hc], ih e (sid + 1)⟩
    · rw [if_neg hc]
      exact List.chain'_cons.mpr ⟨by simp [hc], ih e sid⟩

/-- Claim C3: along the time-sorted output of `add_sessions`, an event
starts a new session (its id is one more than its predecessor's) exactly
when the gap to the immediately preceding event strictly exceeds the
threshold, and the first event gets id 1; in particular a gap equal to
the threshold extends the session, three events at `t0`, `t0+29min`,
`t0+61min` with a 30-minute threshold give the two sessions
`(t0, t0+29min)` and `(t0+61min)` (here at `t0 = 0`), a single event
gives one session of duration zero, and empty input gives no sessions. -/
theorem claim_C3_gap_boundary (watch : List Event) (g : Int) (e : Event) (t0 : Int)
    (u v : String) :
    ((add_sessions watch g).Chain'
      (fun a b => b.2 = if b.1.ts_utc - a.1.ts_utc > 60 * g then a.2 + 1 else a.2)) ∧
    (∀ p ∈ (add_sessions watch g).head?, p.2 = 1) ∧
    (0 < g → add_sessions [⟨t0, u, none⟩, ⟨t0 + 60 * g, v, none⟩] g
      = [(⟨t0, u, none⟩, 1), (⟨t0 + 60 * g, v, none⟩, 1)]) ∧
    session_stats (add_sessions [⟨0, "a", none⟩, ⟨29 * 60, "b", none⟩, ⟨61 * 60, "c", none⟩] 30)
      = [⟨1, 0, 1740, 2, 29⟩, ⟨2, 3660, 3660, 1, 0⟩] ∧
    session_stats (add_sessions [e] g) = [⟨1, e.ts_utc, e.ts_utc, 1, 0⟩] ∧
    add_sessions [] g = [] := by
  refine ⟨?_, ?_, ?_, ?_, ?_, rfl⟩
  · rcases hs : sortBy tsLe watch with _ | ⟨x, rest⟩
    · rw [add_sessions, hs]; simp
    · rw [add_sessions, hs]
      exact sessionsGo_chain g rest x 1
  · rcases hs : sortBy tsLe watch with _ | ⟨x, rest⟩
    · rw [add_sessions, hs]; simp
    · rw [add_sessions, hs]
      intro p hp
      simp only [List.head?_cons, Option.mem_def, Option.some.injEq] at hp
      rw [← hp]
  · intro hg
    have h1 : tsLe ⟨t0, u, none⟩ ⟨t0 + 60 * g, v, none⟩ = true := by
      simp only [tsLe, decide_eq_true_eq]
      omega
    have h2 : ¬((⟨t0 + 60 * g, v, none⟩ : Event).ts_utc - (⟨t0, u, none⟩ : Event).ts_utc
        > 60 * g) := by
      simp only [not_lt]
      omega
    rw [add_sessions]
    show (match insertBy tsLe ⟨t0, u, none⟩ (insertBy tsLe ⟨t0 + 60 * g, v, none⟩ []) with
      | [] => []
      | e :: rest => (e, 1) :: sessionsGo g e 1 rest) = _
    rw [insertBy, insertBy, if_pos h1]
    simp only [sessionsGo, if_neg h2]
  · have h : add_sessions [⟨0, "a", none⟩, ⟨29 * 60, "b", none⟩, ⟨61 * 60, "c", none⟩] 30
        = [(⟨0, "a", none⟩, 1), (⟨1740, "b", none⟩, 1), (⟨3660, "c", none⟩, 2)] := by decide
    rw [h, session_stats]
    norm_num [groupKeys, sortBy, insertBy, dedupAdj, minList, maxList, Session.mk.injEq]
  · have h1 : add_sessions [e] g = [(e, 1)] := rfl
    rw [h1, session_stats]
    norm_num [groupKeys, sortBy, insertBy, dedupAdj, minList, maxList, Session.mk.injEq]

theorem claim_C3_witness :
    (0 : Int) < 30 ∧
    add_sessions [⟨5, "x", none⟩, ⟨5 + 60 * 30, "y", none⟩] 30
      = [(⟨5, "x", none⟩, 1), (⟨5 + 60 * 30, "y", none⟩, 1)] :=
  ⟨by decide,
   (claim_C3_gap_boundary [] 30 ⟨0, "z", none⟩ 5 "x" "y").2.2.1 (by decide)⟩
